import Mathlib

/-!
# Verification of the squad core data model (`squad/core/models.py`)

This file gives a shallow embedding of the algorithmic core of
`squad/core/models.py` — build "finished" evaluation, test summary
aggregation with per-build deduplication, build metadata merging, test
history walking, and the `ProjectStatus.create_or_update` snapshotting
logic — and proves (or refutes) the specified properties about them.

Conventions of the embedding:
* Django model rows become Lean structures; foreign keys become either the
  referenced structure (when the code navigates the object) or the raw id.
* Database querysets become explicit lists carried by the owning structure,
  filters become `List.filter`, `order_by` becomes a stable insertion sort.
* Python's `None`-able fields become `Option`; Python truthiness is spelled
  out at each use site.
* Exceptions become `Except`; floating point numbers are modelled as exact
  rationals (`Rat`).
-/

/-- Stable insertion sort (ascending w.r.t. `le`).  Models both Django's
`order_by` and Python's `sorted` (both are stable). -/
def insertSorted (le : α → α → Bool) (x : α) : List α → List α
  | [] => [x]
  | y :: ys => if le x y then x :: y :: ys else y :: insertSorted le x ys

/-- Stable sort: elements comparing equal keep their original order
(provided `le` is total, i.e. `le x y || le y x`). -/
def sortBy (le : α → α → Bool) (l : List α) : List α :=
  l.foldr (insertSorted le) []

/-! ## Data model -/

/-- A metadata value as found in a test run's `metadata` JSON map: a
scalar (modelled as a string; the merge logic only needs equality and the
string representation of scalars) or a possibly nested list.  The merged
build metadata also lives in this type: a key with several distinct values
maps to a `.list` of them. -/
inductive MetaValue where
  | str : String → MetaValue
  | list : List MetaValue → MetaValue

mutual

def MetaValue.decEq : (a b : MetaValue) → Decidable (a = b)
  | .str a, .str b =>
    match String.decEq a b with
    | isTrue h => isTrue (by rw [h])
    | isFalse h => isFalse (fun hh => h (by cases hh; rfl))
  | .str _, .list _ => isFalse nofun
  | .list _, .str _ => isFalse nofun
  | .list a, .list b =>
    match MetaValue.decEqList a b with
    | isTrue h => isTrue (by rw [h])
    | isFalse h => isFalse (fun hh => h (by cases hh; rfl))

def MetaValue.decEqList : (a b : List MetaValue) → Decidable (a = b)
  | [], [] => isTrue rfl
  | [], _ :: _ => isFalse nofun
  | _ :: _, [] => isFalse nofun
  | a :: as, b :: bs =>
    match MetaValue.decEq a b with
    | isFalse h => isFalse (fun hh => h (by cases hh; rfl))
    | isTrue h1 =>
      match MetaValue.decEqList as bs with
      | isTrue h2 => isTrue (by rw [h1, h2])
      | isFalse h => isFalse (fun hh => h (by cases hh; rfl))

end

instance : DecidableEq MetaValue := MetaValue.decEq

mutual

/-- Python `repr()` of a metadata value (as used inside `str()` of a
list); string escaping corner cases are ignored. -/
def MetaValue.pyRepr : MetaValue → String
  | .str s => "'" ++ s ++ "'"
  | .list l => "[" ++ MetaValue.pyReprList l ++ "]"

/-- `", ".join(repr(v) for v in l)`. -/
def MetaValue.pyReprList : List MetaValue → String
  | [] => ""
  | [v] => MetaValue.pyRepr v
  | v :: vs => MetaValue.pyRepr v ++ ", " ++ MetaValue.pyReprList vs

end

/-- Python `str()` of a metadata value, the sort key of the merge. -/
def MetaValue.pyStr : MetaValue → String
  | .str s => s
  | .list l => (MetaValue.list l).pyRepr

/-- One `Environment` row (`models.py`, class Environment). -/
structure Environment where
  id : Nat
  slug : String
  name : Option String
  expected_test_runs : Option Int
deriving DecidableEq

/-- `Environment.__str__`: `self.name or self.slug` (empty string is falsy). -/
def Environment.toStr (e : Environment) : String :=
  match e.name with
  | some n => if n = "" then e.slug else n
  | none => e.slug

/-- One `Test` row: tri-state result (`NullBooleanField`) plus the
`has_known_issues` flag, and its identity fields. -/
structure Test where
  suite : Nat
  name : String
  result : Option Bool
  has_known_issues : Option Bool
deriving DecidableEq

/-- `Test.status`: `result` truthy → pass, `result is None` → skip,
otherwise xfail when `has_known_issues` is truthy, else fail. -/
def Test.status (t : Test) : String :=
  if t.result = some true then "pass"
  else if t.result = none then "skip"
  else if t.has_known_issues = some true then "xfail"
  else "fail"

/-- One CI test job as seen through `build.test_jobs`.  The `TestJob` model
lives in `squad.ci` (not part of the core sources); `Build.finished` only
reads its `fetched` flag, which is all we model (spec §6:
`jobsForBuild(buildId) → [{fetched: bool}]`). -/
structure TestJob where
  fetched : Bool
deriving DecidableEq

/-- One `TestRun` row with its owned tests and parsed metadata map. -/
structure TestRun where
  id : Nat
  environment : Environment
  completed : Bool
  tests : List Test
  metadata : List (String × MetaValue)
deriving DecidableEq

/-- One `Build` together with the project data `Build.finished` and the
summary logic navigate: the project's environments, the build's test runs
and its CI test jobs. -/
structure Build where
  datetime : Nat
  environments : List Environment
  test_runs : List TestRun
  test_jobs : List TestJob
deriving DecidableEq

/-! ## Completion Evaluator (`Build.finished`) -/

/-- Number of completed test runs of `b` on environment id `eid`
(the `received` counter filled from `test_runs.filter(completed=True)`). -/
def Build.received (b : Build) (eid : Nat) : Nat :=
  (b.test_runs.filter (fun t => t.completed && t.environment.id == eid)).length

/-- The reasons contributed by one environment in the `Build.finished`
loop: skip when `expected_test_runs == 0`; report zero received runs; and
report `received < expected` whenever `expected` is truthy (non-zero,
non-`None`). -/
def envReasons (b : Build) (e : Environment) : List String :=
  let expected := e.expected_test_runs
  let received := b.received e.id
  let truthy : Bool := match expected with | none => false | some n => decide (n ≠ 0)
  if expected = some 0 then []
  else
    (if received = 0 then ["No test runs for " ++ e.toStr ++ " received so far"] else []) ++
    (if truthy && decide ((received : Int) < expected.getD 0)
     then [toString (expected.getD 0) ++ " test runs expected for " ++ e.toStr ++
           ", but only " ++ toString received ++ " received so far"]
     else [])

/-- The reason contributed by the CI job check: present iff there is at
least one job and at least one unfetched job. -/
def jobReasons (b : Build) : List String :=
  if 0 < b.test_jobs.length then
    if 0 < (b.test_jobs.filter (fun j => j.fetched = false)).length then
      ["There are unfinished CI jobs"]
    else []
  else []

/-- `Build.finished`: `(reasons == [], reasons)` with reasons accumulated
from the CI-job check followed by the per-environment loop. -/
def Build.finished (b : Build) : Bool × List String :=
  let reasons := jobReasons b ++ b.environments.flatMap (envReasons b)
  (reasons.length == 0, reasons)

/-- The claim's characterization of "finished" (C1, verbatim): no unfetched
CI job, and every environment with `expected_test_runs != 0` has
`received ≥ expected` when expected is a positive integer and `received ≥ 1`
when expected is unset.  (It says nothing about negative values.) -/
def finishedSpecClaim (b : Build) : Bool :=
  b.test_jobs.all (·.fetched) &&
  b.environments.all (fun e =>
    match e.expected_test_runs with
    | some n => if 0 < n then decide ((n : Int) ≤ (b.received e.id : Int)) else true
    | none => decide (1 ≤ b.received e.id))

/-- Per-environment condition of the amended characterization:
`expected_test_runs = 0` ignores the environment, a positive expected
count requires at least that many completed runs, and an unset *or
negative* one requires at least one completed run. -/
def envExpectedOk (b : Build) (e : Environment) : Bool :=
  match e.expected_test_runs with
  | some n =>
    if n = 0 then true
    else if 0 < n then decide ((n : Int) ≤ (b.received e.id : Int))
    else decide (1 ≤ b.received e.id)
  | none => decide (1 ≤ b.received e.id)

/-- The amended characterization: a negative `expected_test_runs` behaves
exactly like an unset one (at least one completed run required). -/
def finishedSpecAmended (b : Build) : Bool :=
  b.test_jobs.all (·.fetched) && b.environments.all (envExpectedOk b)

/-! ## Test Summary Aggregator (`TestSummary`) -/

/-- The four counters shared by `TestSummaryBase` consumers. -/
structure TestSummaryBase where
  tests_pass : Nat
  tests_fail : Nat
  tests_xfail : Nat
  tests_skip : Nat
deriving DecidableEq

def TestSummaryBase.tests_total (s : TestSummaryBase) : Nat :=
  s.tests_pass + s.tests_fail + s.tests_xfail + s.tests_skip

/-- `TestSummaryBase.__percent__`: note the guard is on `ntests`, not on
the total.  Floating point is modelled as exact rationals. -/
def TestSummaryBase.percent (s : TestSummaryBase) (ntests : Nat) : Rat :=
  if 0 < ntests then 100 * ((ntests : Rat) / (s.tests_total : Rat)) else 0

def TestSummaryBase.pass_percentage (s : TestSummaryBase) : Rat :=
  s.percent s.tests_pass

def TestSummaryBase.fail_percentage (s : TestSummaryBase) : Rat :=
  s.percent (s.tests_fail + s.tests_xfail)

def TestSummaryBase.skip_percentage (s : TestSummaryBase) : Rat :=
  s.percent s.tests_skip

def TestSummaryBase.has_tests (s : TestSummaryBase) : Bool :=
  decide (0 < s.tests_total)

/-- Python-dict insertion into an association list: replace in place when
the key exists (keeping its position, as Python dicts do), append at the
end otherwise. -/
def dictInsert [DecidableEq α] (k : α) (v : β) : List (α × β) → List (α × β)
  | [] => [(k, v)]
  | (k', v') :: rest => if k' = k then (k, v) :: rest else (k', v') :: dictInsert k v rest

/-- Lookup in an association list (Python `d[k]` / `k in d`). -/
def dictLookup [DecidableEq α] (k : α) : List (α × β) → Option β
  | [] => none
  | (k', v) :: rest => if k' = k then some v else dictLookup k rest

/-- The deduplication key of a test inside a run:
`(run.environment, test.suite, test.name)` with Django model equality
being primary-key equality. -/
def testKey (r : TestRun) (t : Test) : Nat × Nat × String :=
  (r.environment.id, t.suite, t.name)

/-- The build's test runs in `order_by('id')` order. -/
def Build.sortedRuns (b : Build) : List TestRun :=
  sortBy (fun r s => r.id ≤ s.id) b.test_runs

/-- The deduplication map of `TestSummary.__init__`: iterate runs in
ascending id order, tests within each run, and overwrite on key collision.
The value keeps the run's environment (the code reaches it through
`test.test_run.environment`). -/
def Build.testsMap (b : Build) : List ((Nat × Nat × String) × (Environment × Test)) :=
  b.sortedRuns.foldl
    (fun m run => run.tests.foldl
      (fun m t => dictInsert (testKey run t) (run.environment, t) m) m)
    []

/-- The (key, value) insertion sequence feeding the deduplication map:
runs in ascending id order, each run's tests in order. -/
def Build.flatTests (b : Build) : List ((Nat × Nat × String) × (Environment × Test)) :=
  b.sortedRuns.flatMap (fun r => r.tests.map (fun t => (testKey r t, (r.environment, t))))

/-- The tests of run `r` carrying deduplication key `k`, with the run's
environment attached (in run-list order). -/
def runKeyTests (k : Nat × Nat × String) (r : TestRun) : List (Environment × Test) :=
  (r.tests.filter (fun t => testKey r t = k)).map (fun t => (r.environment, t))

/-- Per-environment-slug failure lists (`self.failures`). -/
def addFailure (fs : List (String × List Test)) (slug : String) (t : Test) :
    List (String × List Test) :=
  match dictLookup slug fs with
  | some l => dictInsert slug (l ++ [t]) fs
  | none => fs ++ [(slug, [t])]

/-- The aggregate built by `TestSummary.__init__`. -/
structure TestSummary where
  counts : TestSummaryBase
  failures : List (String × List Test)
deriving DecidableEq

/-- One classification step of the `TestSummary.__init__` loop, with the
`raise InvalidTestStatus` branch as an `Except.error`. -/
def classifyStep (acc : TestSummary) (et : Environment × Test) :
    Except String TestSummary :=
  let (env, t) := et
  if t.status = "pass" then
    .ok { acc with counts.tests_pass := acc.counts.tests_pass + 1 }
  else if t.status = "fail" then
    .ok { acc with counts.tests_fail := acc.counts.tests_fail + 1,
                   failures := addFailure acc.failures env.slug t }
  else if t.status = "xfail" then
    .ok { acc with counts.tests_xfail := acc.counts.tests_xfail + 1 }
  else if t.status = "skip" then
    .ok { acc with counts.tests_skip := acc.counts.tests_skip + 1 }
  else
    .error ("Invalid status: " ++ t.status)

/-- Same step with the (unreachable) error branch returning the
accumulator unchanged. -/
def classifyStepT (acc : TestSummary) (et : Environment × Test) : TestSummary :=
  let (env, t) := et
  if t.status = "pass" then
    { acc with counts.tests_pass := acc.counts.tests_pass + 1 }
  else if t.status = "fail" then
    { acc with counts.tests_fail := acc.counts.tests_fail + 1,
               failures := addFailure acc.failures env.slug t }
  else if t.status = "xfail" then
    { acc with counts.tests_xfail := acc.counts.tests_xfail + 1 }
  else if t.status = "skip" then
    { acc with counts.tests_skip := acc.counts.tests_skip + 1 }
  else
    acc

def emptySummary : TestSummary :=
  { counts := ⟨0, 0, 0, 0⟩, failures := [] }

/-- `TestSummary(build)`: deduplicate, then classify every surviving test,
raising on an unrecognized status. -/
def TestSummary.ofBuild (b : Build) : Except String TestSummary :=
  ((b.testsMap.map (·.2)).foldlM classifyStep emptySummary)

/-- Total counterpart of `TestSummary.ofBuild` (they agree: see
`ofBuild_eq_ok`). -/
def TestSummary.ofBuildT (b : Build) : TestSummary :=
  ((b.testsMap.map (·.2)).foldl classifyStepT emptySummary)

/-! ## Metadata Merger (`Build.metadata`) -/

/-- One step of the accumulation loop of `Build.metadata`:
`metadata.setdefault(key, []); if value not in metadata[key]: append`.
A new key is appended at the end (Python dict insertion order); an existing
key keeps its position and its value list grows at the end when the value
is not yet a member. -/
def addValue : List (String × List MetaValue) → String × MetaValue →
    List (String × List MetaValue)
  | [], (k, v) => [(k, [v])]
  | (k', vs) :: rest, (k, v) =>
    if k' = k then (k', if v ∈ vs then vs else vs ++ [v]) :: rest
    else (k', vs) :: addValue rest (k, v)

/-- The accumulation phase of `Build.metadata` over the metadata maps of
all test runs, in run order, entries in map order. -/
def collectValues (ms : List (List (String × MetaValue))) :
    List (String × List MetaValue) :=
  (ms.flatMap id).foldl addValue []

/-- The final phase of `Build.metadata`: a single collected value becomes
the value itself, several become the list sorted by Python `str`. -/
def finalizeValues (vs : List MetaValue) : MetaValue :=
  match vs with
  | [v] => v
  | _ => .list (sortBy (fun a b => a.pyStr ≤ b.pyStr) vs)

/-- `Build.metadata` as a function of the runs' metadata maps. -/
def mergeMetadata (ms : List (List (String × MetaValue))) :
    List (String × MetaValue) :=
  (collectValues ms).map (fun kv => (kv.1, finalizeValues kv.2))

/-! ## Test History Tracker (`Test.history`) -/

/-- A `Test` row together with the fields `Test.history` navigates:
its own id, its run's environment and its build's datetime. -/
structure HistTest where
  id : Nat
  suite : Nat
  name : String
  environment_id : Nat
  build_datetime : Nat
  result : Option Bool
deriving DecidableEq

/-- The result object `Test.History`. -/
structure History where
  since : Option HistTest
  count : Nat
  last_different : Option HistTest
deriving DecidableEq

/-- The queryset feeding the history loop: same suite, name and
environment, strictly earlier build datetime, not the test itself,
ordered newest-first. -/
def previousTests (self : HistTest) (pool : List HistTest) : List HistTest :=
  sortBy (fun a b => b.build_datetime ≤ a.build_datetime)
    (pool.filter (fun t =>
      t.suite == self.suite && t.name == self.name &&
      t.environment_id == self.environment_id &&
      t.build_datetime < self.build_datetime && t.id != self.id))

/-- The accumulation loop of `Test.history`: advance `since` and `count`
while results match, record the first non-match as `last_different` and
stop. -/
def historyWalk (r : Option Bool) : List HistTest → History
  | [] => ⟨none, 0, none⟩
  | t :: ts =>
    if t.result = r then
      match historyWalk r ts with
      | ⟨since, count, ld⟩ => ⟨some (since.getD t), count + 1, ld⟩
    else
      ⟨none, 0, some t⟩

/-- `Test.history`, over an explicit pool standing for the `Test` table. -/
def HistTest.history (self : HistTest) (pool : List HistTest) : History :=
  historyWalk self.result (previousTests self pool)

/-! ## ProjectStatus and `create_or_update` -/

/-- One `ProjectStatus` row. -/
structure ProjectStatus where
  created_at : Nat
  last_updated : Option Nat
  finished : Bool
  notified : Bool
  notified_on_timeout : Bool
  approved : Bool
  metrics_summary : Rat
  has_metrics : Bool
  tests_pass : Nat
  tests_fail : Nat
  tests_xfail : Nat
  tests_skip : Nat
  test_runs_total : Nat
  test_runs_completed : Nat
  test_runs_incomplete : Nat
  regressions : Option String
  fixes : Option String
deriving DecidableEq

/-- `tests_total` from the `TestSummaryBase` mixin, on a stored status. -/
def ProjectStatus.tests_total (s : ProjectStatus) : Nat :=
  s.tests_pass + s.tests_fail + s.tests_xfail + s.tests_skip

/-- `ProjectStatus.create_or_update`.  The metrics summary (a
floating-point geometric mean from `squad.core.statistics`) and the
serialized comparison results (from `squad.core.comparison` via the
previous-build query, embedded separately as `previous_build`) enter as
the already-computed inputs `metrics_value`, `metrics_has`, `regressions`
and `fixes`; `now` stands for `timezone.now()` and `existing` for the
stored row found by `get_or_create`. -/
def ProjectStatus.create_or_update (b : Build) (metrics_value : Rat)
    (metrics_has : Bool) (regressions fixes : Option String) (now : Nat)
    (existing : Option ProjectStatus) : ProjectStatus :=
  let ts := (TestSummary.ofBuildT b).counts
  let test_runs_total := b.test_runs.length
  let test_runs_completed := (b.test_runs.filter (fun t => t.completed = true)).length
  let test_runs_incomplete := (b.test_runs.filter (fun t => t.completed = false)).length
  let fin := (Build.finished b).1
  let data : ProjectStatus :=
    { created_at := now
      last_updated := some now
      finished := fin
      notified := false
      notified_on_timeout := false
      approved := false
      metrics_summary := metrics_value
      has_metrics := metrics_has
      tests_pass := ts.tests_pass
      tests_fail := ts.tests_fail
      tests_xfail := ts.tests_xfail
      tests_skip := ts.tests_skip
      test_runs_total := test_runs_total
      test_runs_completed := test_runs_completed
      test_runs_incomplete := test_runs_incomplete
      regressions := regressions
      fixes := fixes }
  match existing with
  | none => data
  | some status =>
    if status.tests_total ≤ ts.tests_total then
      { status with
          tests_pass := ts.tests_pass
          tests_fail := ts.tests_fail
          tests_xfail := ts.tests_xfail
          tests_skip := ts.tests_skip
          metrics_summary := metrics_value
          has_metrics := metrics_has
          last_updated := some now
          finished := fin
          test_runs_total := test_runs_total
          test_runs_completed := test_runs_completed
          test_runs_incomplete := test_runs_incomplete
          regressions := regressions
          fixes := fixes }
    else status

/-! ## The previous-build query of `create_or_update` -/

/-- A `Build` row as seen by the previous-build query: its own datetime
and project, plus the `patch_baseline` self-referencing foreign key whose
*reverse* relation is what `order_by('build__datetime')` traverses. -/
structure DbBuild where
  id : Nat
  project : Nat
  datetime : Nat
  patch_baseline : Option Nat
deriving DecidableEq

/-- The build table together with the `ProjectStatus.finished` column. -/
structure Db where
  builds : List DbBuild
  finished_status : List (Nat × Bool)
deriving DecidableEq

def Db.hasFinishedStatus (db : Db) (bid : Nat) : Bool :=
  db.finished_status.any (fun s => s.1 == bid && s.2)

/-- SQL `ORDER BY x ASC` comparison on a nullable column (`NULL` sorts
first here; the failing input below involves no `NULL` keys and no ties,
so the backend's `NULL` placement is irrelevant to the result). -/
def optLE : Option Nat → Option Nat → Bool
  | none, _ => true
  | some _, none => false
  | some a, some b => a ≤ b

/-- The previous-build query of `ProjectStatus.create_or_update`:
`Build.objects.filter(status__finished=True, datetime__lt=build.datetime,
project=build.project).order_by('build__datetime').last()`.

On a `Build` queryset the lookup `build` is the *reverse* of the
`patch_baseline` foreign key, so the sort key of a candidate is the
datetime of the build(s) that use the candidate as their patch baseline
(`LEFT JOIN`, one row per referrer, `NULL` when there is none) — not the
candidate's own datetime. -/
def previous_build (db : Db) (b : DbBuild) : Option DbBuild :=
  let candidates := db.builds.filter (fun c =>
    db.hasFinishedStatus c.id && c.datetime < b.datetime && c.project == b.project)
  let rows := candidates.flatMap (fun c =>
    match db.builds.filter (fun x => x.patch_baseline = some c.id) with
    | [] => [(c, (none : Option Nat))]
    | revs => revs.map (fun x => (c, some x.datetime)))
  ((sortBy (fun p q => optLE p.2 q.2) rows).getLast?).map (·.1)

/-- Modelled from the spec: the intended previous build — among the
finished, strictly earlier builds of the same project, the one with the
latest own `datetime` (spec §4.7 step 2, claim C3). -/
def previous_build_spec (db : Db) (b : DbBuild) : Option DbBuild :=
  let candidates := db.builds.filter (fun c =>
    db.hasFinishedStatus c.id && c.datetime < b.datetime && c.project == b.project)
  (sortBy (fun p q => p.datetime ≤ q.datetime) candidates).getLast?

/-! ## Reading back stored comparison data -/

/-- A parsed YAML document; only the empty mapping is ever needed
explicitly. -/
inductive Yaml where
  | map : List (String × Yaml) → Yaml
  | str : String → Yaml
deriving Repr

/-- `ProjectStatus.__get_yaml_field__`: a `None` field yields `{}`;
otherwise the value is handed to `yaml.load`, whose failure (modelled by
the `Except` parameter `yamlLoad`) propagates — there is no handler. -/
def getYamlField (yamlLoad : String → Except String Yaml) :
    Option String → Except String Yaml
  | some s => yamlLoad s
  | none => .ok (.map [])

/-- `ProjectStatus.get_regressions`. -/
def ProjectStatus.get_regressions (yamlLoad : String → Except String Yaml)
    (s : ProjectStatus) : Except String Yaml :=
  getYamlField yamlLoad s.regressions

/-- `ProjectStatus.get_fixes`. -/
def ProjectStatus.get_fixes (yamlLoad : String → Except String Yaml)
    (s : ProjectStatus) : Except String Yaml :=
  getYamlField yamlLoad s.fixes

/-- A toy YAML loader standing in for `yaml.load`: parses only the empty
document and fails on everything else. -/
def yamlLoadToy : String → Except String Yaml :=
  fun s => if s = "{}" then .ok (.map []) else .error "unparsable"

/-- A stored `ProjectStatus` row with a malformed `regressions` value and
a null `fixes` value. -/
def malformedStatus : ProjectStatus :=
  { created_at := 0, last_updated := none, finished := true, notified := false
    notified_on_timeout := false, approved := false, metrics_summary := 0
    has_metrics := false, tests_pass := 1, tests_fail := 0, tests_xfail := 0
    tests_skip := 0, test_runs_total := 1, test_runs_completed := 1
    test_runs_incomplete := 0, regressions := some "][", fixes := none }

/-- Failing input for the previous-build query (C3).  Project 0 contains
finished builds A (datetime 1) and B (datetime 2) and the target build C
(datetime 3); build X (datetime 10) uses A as its patch baseline and
build Y (datetime 5) uses B. -/
def dbBuildA : DbBuild := ⟨1, 0, 1, none⟩

def dbBuildB : DbBuild := ⟨2, 0, 2, none⟩

def dbBuildX : DbBuild := ⟨3, 0, 10, some 1⟩

def dbBuildY : DbBuild := ⟨4, 0, 5, some 2⟩

def dbBuildC : DbBuild := ⟨5, 0, 3, none⟩

def db0 : Db :=
  ⟨[dbBuildA, dbBuildB, dbBuildX, dbBuildY, dbBuildC], [(1, true), (2, true)]⟩

/-- A build with no runs, environments or jobs (fresh total 0). -/
def emptyBuild : Build := ⟨0, [], [], []⟩

/-- A stored status whose counters sum to 1. -/
def statusOne : ProjectStatus :=
  { created_at := 3, last_updated := some 4, finished := false, notified := true
    notified_on_timeout := false, approved := false, metrics_summary := 2
    has_metrics := true, tests_pass := 1, tests_fail := 0, tests_xfail := 0
    tests_skip := 0, test_runs_total := 1, test_runs_completed := 1
    test_runs_incomplete := 0, regressions := some "r", fixes := none }

/-- A project with one environment whose `expected_test_runs` is -1, and a
build with no jobs and no runs: the code is not finished ("No test runs
... received so far"), but the claim's characterization — which constrains
only environments with positive or unset `expected_test_runs` — is
satisfied. -/
def negExpectedBuild : Build :=
  ⟨0, [⟨1, "env", none, some (-1)⟩], [], []⟩

/-- A two-environment project: one unset expectation with one completed
run, one expecting two runs with only one received. -/
def underCountBuild : Build :=
  ⟨0,
   [⟨1, "env1", none, none⟩, ⟨2, "env2", none, some 2⟩],
   [⟨10, ⟨1, "env1", none, none⟩, true, [], []⟩,
    ⟨11, ⟨2, "env2", none, some 2⟩, true, [], []⟩],
   [⟨true⟩]⟩

def dupEnv : Environment := ⟨1, "env", none, none⟩

def dupTest1 : Test := ⟨1, "t", some true, none⟩

def dupTest2 : Test := ⟨1, "t", some false, none⟩

def dupRun1 : TestRun := ⟨1, dupEnv, true, [dupTest1], []⟩

def dupRun2 : TestRun := ⟨2, dupEnv, true, [dupTest2], []⟩

def dupBuild : Build := ⟨0, [dupEnv], [dupRun1, dupRun2], []⟩

/-! ## Spec-side descriptions of the metadata merge -/

/-- First-occurrence deduplication (auxiliary, with the already-seen
elements accumulated). -/
def dedupAux [DecidableEq α] (seen : List α) : List α → List α
  | [] => []
  | x :: xs => if x ∈ seen then dedupAux seen xs else x :: dedupAux (seen ++ [x]) xs

/-- First-occurrence deduplication. -/
def dedupF [DecidableEq α] (l : List α) : List α :=
  dedupAux [] l

/-- The key sequence of an entry list. -/
def entryKeys (es : List (String × MetaValue)) : List String :=
  es.map (·.1)

/-- All values recorded for key `k`, in entry order. -/
def valuesOf (es : List (String × MetaValue)) (k : String) : List MetaValue :=
  (es.filter (fun kv => kv.1 = k)).map (·.2)

/-- Declarative form of the accumulation phase: keys in first-occurrence
order, each with its distinct values (whole-value equality) in
first-occurrence order. -/
def collectSpec (es : List (String × MetaValue)) : List (String × List MetaValue) :=
  (dedupF (entryKeys es)).map (fun k => (k, dedupF (valuesOf es k)))

/-- Declarative (spec-side) form of the whole merge, for the amended C5:
values are treated as atoms — a list-valued input is deduplicated and
compared as a whole, never expanded. -/
def mergeMetadataSpec (ms : List (List (String × MetaValue))) :
    List (String × MetaValue) :=
  let es := ms.flatMap id
  (dedupF (entryKeys es)).map (fun k => (k, finalizeValues (dedupF (valuesOf es k))))

/-- The claim's reading of list-valued inputs: "treated as already
expanded, their elements individually deduplicated". -/
def expandValue : MetaValue → List MetaValue
  | .str s => [.str s]
  | .list l => l

/-- The merge as the claim C5 words it: per key, the values with
list-valued inputs expanded into their elements, deduplicated
individually; then one distinct value collapses to a scalar, several are
sorted by string representation. -/
def mergeMetadataClaimed (ms : List (List (String × MetaValue))) :
    List (String × MetaValue) :=
  let es := ms.flatMap id
  (dedupF (entryKeys es)).map (fun k =>
    (k, finalizeValues (dedupF ((valuesOf es k).flatMap expandValue))))

/-- `Build.metadata`: the merge applied to the metadata maps of the
build's test runs. -/
def Build.metadata (b : Build) : List (String × MetaValue) :=
  mergeMetadata (b.test_runs.map (·.metadata))

/-- A build with a single run whose metadata maps "k" to the list
`['a', 'a']`. -/
def listMetaBuild : Build :=
  ⟨0, [], [⟨1, ⟨1, "env", none, none⟩, true, [],
    [("k", .list [.str "a", .str "a"])]⟩], []⟩

/-! ## Theorems -/

theorem Test.status_cases (t : Test) :
    t.status = "pass" ∨ t.status = "fail" ∨ t.status = "xfail" ∨ t.status = "skip" := by
  unfold Test.status
  split_ifs <;> simp

theorem classifyStep_eq_ok (acc : TestSummary) (et : Environment × Test) :
    classifyStep acc et = .ok (classifyStepT acc et) := by
  obtain ⟨env, t⟩ := et
  rcases Test.status_cases t with h | h | h | h <;>
    simp [classifyStep, classifyStepT, h]

theorem foldlM_classify_eq_ok (l : List (Environment × Test)) (acc : TestSummary) :
    l.foldlM classifyStep acc = .ok (l.foldl classifyStepT acc) := by
  induction l generalizing acc with
  | nil => rfl
  | cons x xs ih =>
    simp only [List.foldlM_cons, List.foldl_cons, classifyStep_eq_ok]
    exact ih (classifyStepT acc x)

theorem ofBuild_eq_ok (b : Build) :
    TestSummary.ofBuild b = .ok (TestSummary.ofBuildT b) :=
  foldlM_classify_eq_ok _ _

theorem percent_eq (s : TestSummaryBase) (n : Nat) :
    s.percent n = (n : Rat) / (s.tests_total : Rat) * 100 := by
  unfold TestSummaryBase.percent
  split_ifs with h
  · ring
  · have hn : n = 0 := by omega
    simp [hn]

/-- C9: `tests_total` is the sum of the four counters; each percentage is
the corresponding count over the total times 100 (exact rational
arithmetic; the quotient is 0 when the total is 0); with a zero total all
three percentages are 0 and `has_tests` is false; `has_tests` holds
exactly when the total is positive. -/
theorem c9_summary_arithmetic (s : TestSummaryBase) :
    s.tests_total = s.tests_pass + s.tests_fail + s.tests_xfail + s.tests_skip ∧
    s.pass_percentage = (s.tests_pass : Rat) / (s.tests_total : Rat) * 100 ∧
    s.fail_percentage = ((s.tests_fail : Rat) + (s.tests_xfail : Rat)) / (s.tests_total : Rat) * 100 ∧
    s.skip_percentage = (s.tests_skip : Rat) / (s.tests_total : Rat) * 100 ∧
    (s.tests_total = 0 →
      s.pass_percentage = 0 ∧ s.fail_percentage = 0 ∧ s.skip_percentage = 0 ∧
      s.has_tests = false) ∧
    (s.has_tests = true ↔ 0 < s.tests_total) := by
  refine ⟨rfl, ?_, ?_, ?_, ?_, ?_⟩
  · exact percent_eq s s.tests_pass
  · rw [TestSummaryBase.fail_percentage, percent_eq]; push_cast; ring
  · exact percent_eq s s.tests_skip
  · intro h
    have hp : s.tests_pass = 0 := by
      have := h; unfold TestSummaryBase.tests_total at this; omega
    have hf : s.tests_fail = 0 := by
      have := h; unfold TestSummaryBase.tests_total at this; omega
    have hx : s.tests_xfail = 0 := by
      have := h; unfold TestSummaryBase.tests_total at this; omega
    have hs : s.tests_skip = 0 := by
      have := h; unfold TestSummaryBase.tests_total at this; omega
    refine ⟨?_, ?_, ?_, ?_⟩
    · rw [TestSummaryBase.pass_percentage, percent_eq, hp]; norm_num
    · rw [TestSummaryBase.fail_percentage, percent_eq, hf, hx]; norm_num
    · rw [TestSummaryBase.skip_percentage, percent_eq, hs]; norm_num
    · simp [TestSummaryBase.has_tests, h]
  · simp [TestSummaryBase.has_tests]

/-- C9 witness: a summary with 1 pass and 3 skips has pass percentage
100·(1/4), and the all-zero summary satisfies the zero-total hypothesis
and gets zero percentages and `has_tests = false`. -/
theorem c9_summary_arithmetic_witness :
    ((⟨1, 0, 0, 3⟩ : TestSummaryBase).pass_percentage =
      (1 : Rat) / ((⟨1, 0, 0, 3⟩ : TestSummaryBase).tests_total : Rat) * 100) ∧
    ((⟨0, 0, 0, 0⟩ : TestSummaryBase).tests_total = 0 ∧
      (⟨0, 0, 0, 0⟩ : TestSummaryBase).pass_percentage = 0 ∧
      (⟨0, 0, 0, 0⟩ : TestSummaryBase).fail_percentage = 0 ∧
      (⟨0, 0, 0, 0⟩ : TestSummaryBase).skip_percentage = 0 ∧
      (⟨0, 0, 0, 0⟩ : TestSummaryBase).has_tests = false) :=
  ⟨(c9_summary_arithmetic ⟨1, 0, 0, 3⟩).2.1,
   rfl,
   (c9_summary_arithmetic ⟨0, 0, 0, 0⟩).2.2.2.2.1 rfl⟩

/-- C10: `Test.status` is a total function into the four values
pass/fail/xfail/skip, and therefore the `InvalidTestStatus` branch of the
`TestSummary` classification loop is unreachable: the summary construction
always succeeds. -/
theorem c10_status_total_no_invalid :
    (∀ t : Test,
      t.status = "pass" ∨ t.status = "fail" ∨ t.status = "xfail" ∨ t.status = "skip") ∧
    (∀ b : Build, ∃ s, TestSummary.ofBuild b = .ok s) :=
  ⟨Test.status_cases, fun b => ⟨TestSummary.ofBuildT b, ofBuild_eq_ok b⟩⟩

/-- C8 counterexample: reading back a malformed stored `regressions` value
is *not* treated as "no comparison data" — the parse error propagates
(`__get_yaml_field__` has no handler around `yaml.load`). -/
theorem c8_counterexample :
    (malformedStatus.get_regressions yamlLoadToy).isOk = false := rfl

/-- C8 amended: reading back stored comparison data fails closed only for
null fields — a null `regressions`/`fixes` yields the empty mapping, while
a malformed stored value propagates the parser's error instead of being
treated as "no comparison data". -/
theorem c8_null_closed_malformed_raises (load : String → Except String Yaml)
    (s : ProjectStatus) :
    (s.regressions = none → s.get_regressions load = .ok (.map [])) ∧
    (s.fixes = none → s.get_fixes load = .ok (.map [])) ∧
    (∀ v e, s.regressions = some v → load v = .error e →
      s.get_regressions load = .error e) ∧
    (∀ v e, s.fixes = some v → load v = .error e →
      s.get_fixes load = .error e) := by
  refine ⟨?_, ?_, ?_, ?_⟩
  · intro h; simp [ProjectStatus.get_regressions, getYamlField, h]
  · intro h; simp [ProjectStatus.get_fixes, getYamlField, h]
  · intro v e hv he; simp [ProjectStatus.get_regressions, getYamlField, hv, he]
  · intro v e hv he; simp [ProjectStatus.get_fixes, getYamlField, hv, he]

/-- C8 witness: on `malformedStatus`, the null `fixes` field reads back as
the empty mapping and the malformed `regressions` field propagates the
parse error. -/
theorem c8_null_closed_malformed_raises_witness :
    malformedStatus.get_fixes yamlLoadToy = .ok (.map []) ∧
    malformedStatus.get_regressions yamlLoadToy = .error "unparsable" :=
  ⟨(c8_null_closed_malformed_raises yamlLoadToy malformedStatus).2.1 rfl,
   (c8_null_closed_malformed_raises yamlLoadToy malformedStatus).2.2.1
     "][" "unparsable" rfl rfl⟩

/-- C3: the code's previous-build query sorts the candidate builds by
`'build__datetime'` — the datetime of builds *referring to* the candidate
through `patch_baseline` — instead of the candidate's own datetime, so it
returns A (whose referrer has datetime 10) although B is the
latest-datetime earlier finished build. -/
theorem c3_previous_build_wrong_order :
    previous_build db0 dbBuildC = some dbBuildA ∧
    previous_build_spec db0 dbBuildC = some dbBuildB ∧
    dbBuildA ≠ dbBuildB := by
  refine ⟨rfl, rfl, ?_⟩
  decide

/-- C2: for a build that already has a ProjectStatus, `create_or_update`
leaves every stored field unchanged (returning the existing row) when the
freshly computed `tests_total` is strictly below the stored one; when it
is greater or equal, it overwrites the aggregate counters, metrics
summary, `last_updated`, `finished`, the run counts and the
regressions/fixes fields in place (all other fields keep their values);
in both cases the stored `tests_total` does not decrease. -/
theorem c2_status_monotonic_update (b : Build) (mv : Rat) (mh : Bool)
    (r f : Option String) (now : Nat) (s : ProjectStatus) :
    ((TestSummary.ofBuildT b).counts.tests_total < s.tests_total →
      ProjectStatus.create_or_update b mv mh r f now (some s) = s) ∧
    (s.tests_total ≤ (TestSummary.ofBuildT b).counts.tests_total →
      ProjectStatus.create_or_update b mv mh r f now (some s) =
        { s with
            tests_pass := (TestSummary.ofBuildT b).counts.tests_pass
            tests_fail := (TestSummary.ofBuildT b).counts.tests_fail
            tests_xfail := (TestSummary.ofBuildT b).counts.tests_xfail
            tests_skip := (TestSummary.ofBuildT b).counts.tests_skip
            metrics_summary := mv
            has_metrics := mh
            last_updated := some now
            finished := (Build.finished b).1
            test_runs_total := b.test_runs.length
            test_runs_completed := (b.test_runs.filter (fun t => t.completed = true)).length
            test_runs_incomplete := (b.test_runs.filter (fun t => t.completed = false)).length
            regressions := r
            fixes := f }) ∧
    s.tests_total ≤
      (ProjectStatus.create_or_update b mv mh r f now (some s)).tests_total := by
  have hmain : ProjectStatus.create_or_update b mv mh r f now (some s) =
      (if s.tests_total ≤ (TestSummary.ofBuildT b).counts.tests_total then
        { s with
            tests_pass := (TestSummary.ofBuildT b).counts.tests_pass
            tests_fail := (TestSummary.ofBuildT b).counts.tests_fail
            tests_xfail := (TestSummary.ofBuildT b).counts.tests_xfail
            tests_skip := (TestSummary.ofBuildT b).counts.tests_skip
            metrics_summary := mv
            has_metrics := mh
            last_updated := some now
            finished := (Build.finished b).1
            test_runs_total := b.test_runs.length
            test_runs_completed := (b.test_runs.filter (fun t => t.completed = true)).length
            test_runs_incomplete := (b.test_runs.filter (fun t => t.completed = false)).length
            regressions := r
            fixes := f }
      else s) := rfl
  rw [hmain]
  refine ⟨?_, ?_, ?_⟩
  · intro h
    rw [if_neg (by omega)]
  · intro h
    rw [if_pos (by omega)]
  · split_ifs with h
    · simp only [ProjectStatus.tests_total, TestSummaryBase.tests_total] at *
      omega
    · omega

/-- C2 witness: against `statusOne` (total 1), an update computed from the
empty build (total 0) is dropped — the stored row is returned unchanged —
and the total did not decrease. -/
theorem c2_status_monotonic_update_witness :
    ((TestSummary.ofBuildT emptyBuild).counts.tests_total < statusOne.tests_total ∧
      ProjectStatus.create_or_update emptyBuild 0 false none none 9 (some statusOne) =
        statusOne) ∧
    statusOne.tests_total ≤
      (ProjectStatus.create_or_update emptyBuild 0 false none none 9
        (some statusOne)).tests_total :=
  ⟨⟨by decide,
    (c2_status_monotonic_update emptyBuild 0 false none none 9 statusOne).1 (by decide)⟩,
   (c2_status_monotonic_update emptyBuild 0 false none none 9 statusOne).2.2⟩

theorem all_fetched_iff (jobs : List TestJob) :
    (jobs.filter (fun j => j.fetched = false)).length = 0 ↔
      jobs.all (·.fetched) = true := by
  induction jobs with
  | nil => simp
  | cons j js ih =>
    cases hf : j.fetched <;> simp [List.filter_cons, hf, ih]

theorem jobReasons_eq_nil (b : Build) :
    jobReasons b = [] ↔ b.test_jobs.all (·.fetched) = true := by
  unfold jobReasons
  split_ifs with h1 h2
  · constructor
    · intro h; cases h
    · intro h
      rw [← all_fetched_iff] at h
      omega
  · simp only [true_iff]
    rw [← all_fetched_iff]
    omega
  · have hnil : b.test_jobs = [] := List.length_eq_zero.mp (by omega)
    simp [hnil]

theorem envReasons_eq_nil (b : Build) (e : Environment) :
    envReasons b e = [] ↔ envExpectedOk b e = true := by
  simp only [envReasons, envExpectedOk]
  rcases hx : e.expected_test_runs with _ | n
  · rw [if_neg (by simp)]
    simp only [List.append_eq_nil]
    constructor
    · rintro ⟨h1, -⟩
      split_ifs at h1 with hr
      simp only [decide_eq_true_eq]
      omega
    · intro h
      simp only [decide_eq_true_eq] at h
      exact ⟨by rw [if_neg (by omega)], by simp⟩
  · by_cases hn : n = 0
    · subst hn
      simp
    · rw [if_neg (by simp [hn])]
      simp only [List.append_eq_nil]
      constructor
      · rintro ⟨h1, h2⟩
        split_ifs at h1 with hr
        split_ifs at h2 with hlt
        rw [if_neg hn]
        simp only [Option.getD_some, Bool.and_eq_true, decide_eq_true_eq, not_and] at hlt
        have hge : ¬ ((b.received e.id : Int) < n) := hlt hn
        split_ifs with hpos <;> simp only [decide_eq_true_eq] <;> omega
      · intro h
        rw [if_neg hn] at h
        have hrec : 1 ≤ b.received e.id ∧ ¬((b.received e.id : Int) < n) := by
          split_ifs at h with hpos <;> simp only [decide_eq_true_eq] at h <;>
            exact ⟨by omega, by omega⟩
        have hc : ¬((decide (n ≠ 0) && decide ((b.received e.id : Int) < (some n).getD 0)) = true) := by
          simp only [Option.getD_some, Bool.and_eq_true, decide_eq_true_eq, not_and]
          intro _
          exact hrec.2
        exact ⟨by rw [if_neg (by omega)], by rw [if_neg hc]⟩

/-- C1 counterexample: the claimed iff fails on a (representable)
environment with negative `expected_test_runs`: the code requires at
least one completed run for it, the claim requires nothing. -/
theorem c1_finished_counterexample :
    ¬ (((Build.finished negExpectedBuild).1 = true) ↔
       (finishedSpecClaim negExpectedBuild = true)) := by
  have h1 : (Build.finished negExpectedBuild).1 = false := rfl
  have h2 : finishedSpecClaim negExpectedBuild = true := rfl
  rw [h1, h2]
  simp

/-- C1 (amended): the first component of `Build.finished` is true iff the
reasons list is empty, which holds exactly when (a) no CI test job of the
build is unfetched and (b) every environment with `expected_test_runs ≠ 0`
has at least `expected_test_runs` completed test runs when that value is
positive, and at least one completed test run when it is unset *or
negative*.  The well-formedness hypothesis restricts to builds whose
completed runs all belong to a project environment — outside it the
Python code raises `KeyError`. -/
theorem c1_finished_characterization (b : Build)
    (_hwf : ∀ t ∈ b.test_runs, t.completed = true →
      ∃ e ∈ b.environments, e.id = t.environment.id) :
    ((Build.finished b).1 = true ↔ (Build.finished b).2 = []) ∧
    ((Build.finished b).1 = true ↔ finishedSpecAmended b = true) := by
  have hfin : ((Build.finished b).1 = true) ↔
      (jobReasons b = [] ∧ ∀ e ∈ b.environments, envReasons b e = []) := by
    simp only [Build.finished, beq_iff_eq, List.length_eq_zero,
      List.append_eq_nil, List.flatMap_eq_nil_iff]
  refine ⟨?_, ?_⟩
  · rw [hfin]
    simp only [Build.finished, List.append_eq_nil, List.flatMap_eq_nil_iff]
  · rw [hfin]
    unfold finishedSpecAmended
    rw [Bool.and_eq_true, ← jobReasons_eq_nil, List.all_eq_true]
    constructor
    · rintro ⟨hj, he⟩
      exact ⟨hj, fun e hm => (envReasons_eq_nil b e).mp (he e hm)⟩
    · rintro ⟨hj, he⟩
      exact ⟨hj, fun e hm => (envReasons_eq_nil b e).mpr (he e hm)⟩

/-- C1 witness: on `underCountBuild` (all runs belong to project
environments) the characterization applies; the build is not finished and
indeed fails the amended condition. -/
theorem c1_finished_characterization_witness :
    ((Build.finished underCountBuild).1 = true ↔
      finishedSpecAmended underCountBuild = true) ∧
    (Build.finished underCountBuild).1 = false :=
  ⟨(c1_finished_characterization underCountBuild (by decide)).2, rfl⟩

theorem getLast?_cons_eq (t : α) (l : List α) :
    (t :: l).getLast? = some (l.getLast?.getD t) := by
  induction l generalizing t with
  | nil => rfl
  | cons x xs ih =>
    rw [List.getLast?_cons_cons, ih x]
    simp

theorem historyWalk_eq (r : Option Bool) (l : List HistTest) :
    historyWalk r l =
      ⟨(l.takeWhile (fun t => t.result == r)).getLast?,
       (l.takeWhile (fun t => t.result == r)).length,
       (l.dropWhile (fun t => t.result == r)).head?⟩ := by
  induction l with
  | nil => rfl
  | cons t ts ih =>
    by_cases h : t.result = r
    · simp only [historyWalk, if_pos h, ih, List.takeWhile_cons, List.dropWhile_cons,
        beq_iff_eq, h, if_pos, ite_true]
      rw [getLast?_cons_eq]
      simp
    · simp only [historyWalk, if_neg h, List.takeWhile_cons, List.dropWhile_cons,
        beq_iff_eq, h, ite_false]
      simp [h]

/-- C7: `Test.history` walks the same-identity tests of strictly earlier
builds newest-first; `count` is the length of the maximal prefix whose raw
results equal this test's, `since` is the last (oldest) test of that
prefix, and `last_different` is the first test after it; with no prior
tests all of these are empty/zero. -/
theorem c7_history_run_length (self : HistTest) (pool : List HistTest) :
    (HistTest.history self pool =
      ⟨((previousTests self pool).takeWhile (fun t => t.result == self.result)).getLast?,
       ((previousTests self pool).takeWhile (fun t => t.result == self.result)).length,
       ((previousTests self pool).dropWhile (fun t => t.result == self.result)).head?⟩) ∧
    (previousTests self pool = [] →
      HistTest.history self pool = ⟨none, 0, none⟩) := by
  constructor
  · exact historyWalk_eq self.result (previousTests self pool)
  · intro h
    unfold HistTest.history
    rw [h]
    rfl

/-- C7 witness: a pool with two earlier matching tests and an older
differing one: count 2, `since` the older matching test, `last_different`
the differing one; and the empty pool gives the empty history. -/
theorem c7_history_run_length_witness :
    (HistTest.history ⟨10, 1, "t", 1, 5, some true⟩
        [⟨11, 1, "t", 1, 4, some true⟩, ⟨12, 1, "t", 1, 3, some true⟩,
         ⟨13, 1, "t", 1, 2, some false⟩] =
      ⟨some ⟨12, 1, "t", 1, 3, some true⟩, 2, some ⟨13, 1, "t", 1, 2, some false⟩⟩) ∧
    (HistTest.history ⟨10, 1, "t", 1, 5, some true⟩ [] = ⟨none, 0, none⟩) := by
  constructor
  · rw [(c7_history_run_length ⟨10, 1, "t", 1, 5, some true⟩ _).1]
    decide
  · exact (c7_history_run_length ⟨10, 1, "t", 1, 5, some true⟩ []).2 rfl

theorem insertSorted_perm (le : α → α → Bool) (x : α) (l : List α) :
    (insertSorted le x l).Perm (x :: l) := by
  induction l with
  | nil => exact List.Perm.refl _
  | cons y ys ih =>
    rw [insertSorted]
    split_ifs with h
    · exact List.Perm.refl _
    · exact (ih.cons y).trans (List.Perm.swap x y ys)

theorem sortBy_perm (le : α → α → Bool) (l : List α) : (sortBy le l).Perm l := by
  induction l with
  | nil => exact List.Perm.refl _
  | cons x xs ih =>
    rw [sortBy, List.foldr_cons]
    exact (insertSorted_perm le x (sortBy le xs)).trans (ih.cons x)

theorem insertSorted_pairwise (le : α → α → Bool)
    (htrans : ∀ a b c, le a b = true → le b c = true → le a c = true)
    (htot : ∀ a b, le a b = true ∨ le b a = true)
    (x : α) (l : List α) (hl : l.Pairwise (fun a b => le a b = true)) :
    (insertSorted le x l).Pairwise (fun a b => le a b = true) := by
  induction l with
  | nil => simp [insertSorted]
  | cons y ys ih =>
    obtain ⟨hy, hys⟩ := List.pairwise_cons.mp hl
    rw [insertSorted]
    split_ifs with h
    · refine List.pairwise_cons.mpr ⟨?_, hl⟩
      intro z hz
      rcases List.mem_cons.mp hz with h1 | h1
      · subst h1; exact h
      · exact htrans x y z h (hy z h1)
    · have hyx : le y x = true := by
        rcases htot x y with h1 | h1
        · exact absurd h1 h
        · exact h1
      refine List.pairwise_cons.mpr ⟨?_, ih hys⟩
      intro z hz
      rcases List.mem_cons.mp ((insertSorted_perm le x ys).mem_iff.mp hz) with h1 | h1
      · subst h1; exact hyx
      · exact hy z h1

theorem sortBy_pairwise (le : α → α → Bool)
    (htrans : ∀ a b c, le a b = true → le b c = true → le a c = true)
    (htot : ∀ a b, le a b = true ∨ le b a = true) (l : List α) :
    (sortBy le l).Pairwise (fun a b => le a b = true) := by
  induction l with
  | nil => simp [sortBy]
  | cons x xs ih =>
    rw [sortBy, List.foldr_cons]
    exact insertSorted_pairwise le htrans htot x (sortBy le xs) ih

theorem sortedRuns_perm (b : Build) : b.sortedRuns.Perm b.test_runs :=
  sortBy_perm _ _

theorem sortedRuns_pairwise (b : Build) :
    b.sortedRuns.Pairwise (fun a b => a.id ≤ b.id) := by
  have h := sortBy_pairwise (fun r s : TestRun => r.id ≤ s.id)
    (fun a b c hab hbc => by simp only [decide_eq_true_eq] at *; omega)
    (fun a b => by
      rcases Nat.le_total a.id b.id with h | h
      · exact Or.inl (by simpa using h)
      · exact Or.inr (by simpa using h))
    b.test_runs
  exact h.imp (fun hab => by simpa using hab)

theorem dictLookup_dictInsert [DecidableEq α] (k k0 : α) (v0 : β) (m : List (α × β)) :
    dictLookup k (dictInsert k0 v0 m) = if k0 = k then some v0 else dictLookup k m := by
  induction m with
  | nil =>
    by_cases h : k0 = k <;> simp [dictInsert, dictLookup, h]
  | cons e rest ih =>
    obtain ⟨k', v'⟩ := e
    by_cases h1 : k' = k0
    · rw [dictInsert, if_pos h1]
      subst h1
      by_cases h2 : k' = k <;> simp [dictLookup, h2]
    · rw [dictInsert, if_neg h1]
      by_cases h2 : k' = k
      · have h3 : ¬(k0 = k) := fun hc => h1 (h2.trans hc.symm)
        simp [dictLookup, h2, h3]
      · by_cases h3 : k0 = k
        · subst h3
          simp [dictLookup, h2, ih]
        · simp [dictLookup, h2, h3, ih]

theorem dictLookup_foldl [DecidableEq α] (k : α) (l : List (α × β)) (m0 : List (α × β)) :
    dictLookup k (l.foldl (fun m kv => dictInsert kv.1 kv.2 m) m0) =
      (((l.filter (fun kv => kv.1 = k)).map (·.2)).getLast?).or (dictLookup k m0) := by
  induction l generalizing m0 with
  | nil => simp
  | cons e l ih =>
    obtain ⟨k0, v0⟩ := e
    rw [List.foldl_cons, ih, List.filter_cons]
    by_cases h : k0 = k
    · rw [if_pos (by simpa using h), List.map_cons, getLast?_cons_eq,
        dictLookup_dictInsert, if_pos h]
      rcases hF : ((l.filter (fun kv => kv.1 = k)).map (·.2)).getLast? with _ | w <;>
        simp [Option.or, hF]
    · rw [if_neg (by simpa using h), dictLookup_dictInsert, if_neg h]

theorem foldl_runs_eq_foldl_flat (runs : List TestRun)
    (m0 : List ((Nat × Nat × String) × (Environment × Test))) :
    runs.foldl (fun m run => run.tests.foldl
      (fun m t => dictInsert (testKey run t) (run.environment, t) m) m) m0 =
    (runs.flatMap (fun r => r.tests.map (fun t => (testKey r t, (r.environment, t))))).foldl
      (fun m kv => dictInsert kv.1 kv.2 m) m0 := by
  induction runs generalizing m0 with
  | nil => rfl
  | cons r rest ih =>
    rw [List.foldl_cons, List.flatMap_cons, List.foldl_append, List.foldl_map]
    exact ih _

theorem testsMap_eq_flat (b : Build) :
    b.testsMap = b.flatTests.foldl (fun m kv => dictInsert kv.1 kv.2 m) [] :=
  foldl_runs_eq_foldl_flat _ _

theorem dictInsert_keys [DecidableEq α] (k : α) (v : β) (m : List (α × β)) :
    (dictInsert k v m).map (·.1) =
      if k ∈ m.map (·.1) then m.map (·.1) else m.map (·.1) ++ [k] := by
  induction m with
  | nil => simp [dictInsert]
  | cons e rest ih =>
    obtain ⟨k', v'⟩ := e
    by_cases h : k' = k
    · subst h
      simp [dictInsert]
    · rw [dictInsert, if_neg h, List.map_cons, List.map_cons, ih]
      by_cases h2 : k ∈ rest.map (·.1)
      · rw [if_pos h2, if_pos]
        dsimp only
        exact List.mem_cons_of_mem _ h2
      · rw [if_neg h2, if_neg, List.cons_append]
        dsimp only
        intro hc
        rcases List.mem_cons.mp hc with hc1 | hc1
        · exact h hc1.symm
        · exact h2 hc1

theorem foldl_dictInsert_keys_nodup [DecidableEq α] (l : List (α × β))
    (m0 : List (α × β)) (h : (m0.map (·.1)).Nodup) :
    ((l.foldl (fun m kv => dictInsert kv.1 kv.2 m) m0).map (·.1)).Nodup := by
  induction l generalizing m0 with
  | nil => exact h
  | cons e l ih =>
    rw [List.foldl_cons]
    apply ih
    rw [dictInsert_keys]
    split_ifs with h2
    · exact h
    · exact h.append (List.nodup_singleton e.1)
        (fun a ha hb => h2 ((List.mem_singleton.mp hb) ▸ ha))

theorem mem_dictInsert [DecidableEq α] (kv : α × β) (k0 : α) (v0 : β)
    (m : List (α × β)) (h : kv ∈ dictInsert k0 v0 m) : kv = (k0, v0) ∨ kv ∈ m := by
  induction m with
  | nil => simpa [dictInsert] using h
  | cons e rest ih =>
    obtain ⟨k', v'⟩ := e
    rw [dictInsert] at h
    split_ifs at h with h1
    · rcases List.mem_cons.mp h with h2 | h2
      · exact Or.inl h2
      · exact Or.inr (List.mem_cons_of_mem _ h2)
    · rcases List.mem_cons.mp h with h2 | h2
      · exact Or.inr (h2 ▸ List.mem_cons_self _ _)
      · rcases ih h2 with h3 | h3
        · exact Or.inl h3
        · exact Or.inr (List.mem_cons_of_mem _ h3)

theorem mem_foldl_dictInsert [DecidableEq α] (kv : α × β) (l : List (α × β))
    (m0 : List (α × β))
    (h : kv ∈ l.foldl (fun m kv => dictInsert kv.1 kv.2 m) m0) :
    kv ∈ m0 ∨ kv ∈ l := by
  induction l generalizing m0 with
  | nil => exact Or.inl h
  | cons e l ih =>
    rw [List.foldl_cons] at h
    rcases ih _ h with h1 | h1
    · rcases mem_dictInsert kv e.1 e.2 m0 h1 with h2 | h2
      · exact Or.inr (h2 ▸ List.mem_cons_self _ _)
      · exact Or.inl h2
    · exact Or.inr (List.mem_cons_of_mem _ h1)

theorem dictLookup_of_mem_nodup [DecidableEq α] (m : List (α × β)) (k : α) (v : β)
    (hnd : (m.map (·.1)).Nodup) (hmem : (k, v) ∈ m) : dictLookup k m = some v := by
  induction m with
  | nil => cases hmem
  | cons e rest ih =>
    obtain ⟨k0, v0⟩ := e
    rw [List.map_cons] at hnd
    obtain ⟨hk0, hndr⟩ := List.nodup_cons.mp hnd
    rcases List.mem_cons.mp hmem with h | h
    · cases h
      rw [dictLookup, if_pos rfl]
    · have hk : ¬(k0 = k) := by
        intro hc
        apply hk0
        exact List.mem_map.mpr ⟨(k, v), h, by rw [hc]⟩
      rw [dictLookup, if_neg hk]
      exact ih hndr h

theorem foldl_classify_countP (l : List (Environment × Test)) (acc : TestSummary) :
    ((l.foldl classifyStepT acc).counts.tests_pass =
      acc.counts.tests_pass + l.countP (fun et => et.2.status == "pass")) ∧
    ((l.foldl classifyStepT acc).counts.tests_fail =
      acc.counts.tests_fail + l.countP (fun et => et.2.status == "fail")) ∧
    ((l.foldl classifyStepT acc).counts.tests_xfail =
      acc.counts.tests_xfail + l.countP (fun et => et.2.status == "xfail")) ∧
    ((l.foldl classifyStepT acc).counts.tests_skip =
      acc.counts.tests_skip + l.countP (fun et => et.2.status == "skip")) := by
  induction l generalizing acc with
  | nil => simp
  | cons et l ih =>
    obtain ⟨env, t⟩ := et
    obtain ⟨i1, i2, i3, i4⟩ := ih (classifyStepT acc (env, t))
    rw [List.foldl_cons]
    refine ⟨?_, ?_, ?_, ?_⟩ <;>
      · simp only [i1, i2, i3, i4, List.countP_cons]
        rcases Test.status_cases t with h | h | h | h <;>
          (simp [classifyStepT, h]; try omega)

theorem filter_map_run (r : TestRun) (k : Nat × Nat × String) (ts : List Test) :
    (((ts.map (fun t => (testKey r t, (r.environment, t)))).filter
        (fun kv => kv.1 = k)).map (·.2)) =
      (ts.filter (fun t => testKey r t = k)).map (fun t => (r.environment, t)) := by
  induction ts with
  | nil => rfl
  | cons t ts ih =>
    rw [List.map_cons, List.filter_cons, List.filter_cons]
    by_cases h : testKey r t = k
    · rw [if_pos (by simpa using h), if_pos (by simpa using h), List.map_cons,
        List.map_cons, ih]
    · rw [if_neg (by simpa using h), if_neg (by simpa using h), ih]

theorem filter_map_flat (l : List TestRun) (k : Nat × Nat × String) :
    (((l.flatMap (fun r => r.tests.map
          (fun t => (testKey r t, (r.environment, t))))).filter
        (fun kv => kv.1 = k)).map (·.2)) = l.flatMap (runKeyTests k) := by
  induction l with
  | nil => rfl
  | cons r rest ih =>
    rw [List.flatMap_cons, List.flatMap_cons, List.filter_append, List.map_append, ih]
    congr 1
    exact filter_map_run r k r.tests

theorem getLast?_of_all_eq (l : List α) (a : α) (hne : l ≠ [])
    (hall : ∀ x ∈ l, x = a) : l.getLast? = some a := by
  induction l with
  | nil => cases hne rfl
  | cons x xs ih =>
    by_cases hxs : xs = []
    · subst hxs
      rw [getLast?_cons_eq]
      simp [hall x (List.mem_cons_self x [])]
    · rw [getLast?_cons_eq, ih hxs (fun z hz => hall z (List.mem_cons_of_mem _ hz))]
      rfl

theorem flatMap_keyTests_getLast (k : Nat × Nat × String) (r1 r2 : TestRun)
    (t2 : Test) (hid : r1.id < r2.id)
    (h2ne : runKeyTests k r2 ≠ [])
    (h2all : ∀ x ∈ runKeyTests k r2, x = (r2.environment, t2)) :
    ∀ l : List TestRun, l.Pairwise (fun a b => a.id ≤ b.id) → r2 ∈ l →
      (∀ r ∈ l, runKeyTests k r ≠ [] → r = r1 ∨ r = r2) →
      (l.flatMap (runKeyTests k)).getLast? = some (r2.environment, t2) := by
  intro l
  induction l using List.reverseRecOn with
  | nil => intro _ hr2 _; cases hr2
  | append_singleton l r ih =>
    intro hsort hr2 hocc
    rw [List.flatMap_append, List.flatMap_singleton, List.getLast?_append]
    by_cases hr : r = r2
    · subst hr
      rw [getLast?_of_all_eq _ _ h2ne h2all]
      rfl
    · have hr2' : r2 ∈ l := by
        rcases List.mem_append.mp hr2 with h | h
        · exact h
        · exact absurd (List.mem_singleton.mp h).symm hr
      by_cases hempty : runKeyTests k r = []
      · rw [hempty]
        simp only [List.getLast?_nil, Option.none_or]
        obtain ⟨hs1, _, _⟩ := List.pairwise_append.mp hsort
        exact ih hs1 hr2' (fun r' hr' hne' =>
          hocc r' (List.mem_append.mpr (Or.inl hr')) hne')
      · exfalso
        rcases hocc r (List.mem_append.mpr (Or.inr (List.mem_singleton.mpr rfl)))
            hempty with h | h
        · subst h
          obtain ⟨_, _, hcross⟩ := List.pairwise_append.mp hsort
          have := hcross r2 hr2' r (List.mem_singleton.mpr rfl)
          omega
        · exact hr h

/-- C4: for every build containing two tests with the same deduplication
key `(environment, suite, name)` coming from two runs with distinct ids
(and no other test of the build carrying that key), the deduplication map
— built by iterating runs in ascending id order with overwrite on
collision — holds the test of the *higher-id* run at that key, its keys
are unique, the loser never appears among the surviving values, and the
four summary counters are exactly the per-status counts over the
surviving values, so the summary reflects exactly one of the two tests:
the one from the higher-id run. -/
theorem c4_dedup_higher_run_wins (b : Build) (r1 r2 : TestRun) (t1 t2 : Test)
    (_hr1 : r1 ∈ b.test_runs) (hr2 : r2 ∈ b.test_runs)
    (hid : r1.id < r2.id)
    (_ht1 : t1 ∈ r1.tests) (ht2 : t2 ∈ r2.tests)
    (hkey : testKey r1 t1 = testKey r2 t2)
    (honly : ∀ r ∈ b.test_runs, ∀ t ∈ r.tests,
      testKey r t = testKey r2 t2 → (r = r1 ∧ t = t1) ∨ (r = r2 ∧ t = t2)) :
    dictLookup (testKey r2 t2) b.testsMap = some (r2.environment, t2) ∧
    ((r1.environment, t1) ≠ (r2.environment, t2) →
      (r1.environment, t1) ∉ b.testsMap.map (·.2)) ∧
    (b.testsMap.map (·.1)).Nodup ∧
    (TestSummary.ofBuildT b).counts.tests_pass =
      (b.testsMap.map (·.2)).countP (fun et => et.2.status == "pass") ∧
    (TestSummary.ofBuildT b).counts.tests_fail =
      (b.testsMap.map (·.2)).countP (fun et => et.2.status == "fail") ∧
    (TestSummary.ofBuildT b).counts.tests_xfail =
      (b.testsMap.map (·.2)).countP (fun et => et.2.status == "xfail") ∧
    (TestSummary.ofBuildT b).counts.tests_skip =
      (b.testsMap.map (·.2)).countP (fun et => et.2.status == "skip") ∧
    TestSummary.ofBuild b = .ok (TestSummary.ofBuildT b) := by
  have hr1ne2 : r1 ≠ r2 := fun hc => by rw [hc] at hid; omega
  have h2ne : runKeyTests (testKey r2 t2) r2 ≠ [] := by
    have hmem : (r2.environment, t2) ∈ runKeyTests (testKey r2 t2) r2 :=
      List.mem_map.mpr ⟨t2, List.mem_filter.mpr ⟨ht2, by simp⟩, rfl⟩
    exact List.ne_nil_of_mem hmem
  have h2all : ∀ x ∈ runKeyTests (testKey r2 t2) r2, x = (r2.environment, t2) := by
    intro x hx
    rcases List.mem_map.mp hx with ⟨t, htm, rfl⟩
    obtain ⟨htm2, hkeyt⟩ := List.mem_filter.mp htm
    rcases honly r2 hr2 t htm2 (by simpa using hkeyt) with ⟨hc, _⟩ | ⟨_, rfl⟩
    · exact absurd hc.symm hr1ne2
    · rfl
  have hocc : ∀ r ∈ b.sortedRuns, runKeyTests (testKey r2 t2) r ≠ [] →
      r = r1 ∨ r = r2 := by
    intro r hr hne'
    have hrm : r ∈ b.test_runs := (sortedRuns_perm b).mem_iff.mp hr
    have hfne : r.tests.filter (fun t => testKey r t = (testKey r2 t2)) ≠ [] := by
      intro hc
      apply hne'
      rw [runKeyTests, hc]
      rfl
    obtain ⟨t, htm⟩ := List.exists_mem_of_ne_nil _ hfne
    obtain ⟨htm2, hkeyt⟩ := List.mem_filter.mp htm
    rcases honly r hrm t htm2 (by simpa using hkeyt) with ⟨h, _⟩ | ⟨h, _⟩
    · exact Or.inl h
    · exact Or.inr h
  have hlook : dictLookup (testKey r2 t2) b.testsMap = some (r2.environment, t2) := by
    rw [testsMap_eq_flat, dictLookup_foldl, Build.flatTests, filter_map_flat,
      flatMap_keyTests_getLast (testKey r2 t2) r1 r2 t2 hid h2ne h2all b.sortedRuns
        (sortedRuns_pairwise b) ((sortedRuns_perm b).mem_iff.mpr hr2) hocc]
    rfl
  have hnd : (b.testsMap.map (·.1)).Nodup := by
    rw [testsMap_eq_flat]
    exact foldl_dictInsert_keys_nodup _ _ (by simp)
  refine ⟨hlook, ?_, hnd, ?_, ?_, ?_, ?_, ofBuild_eq_ok b⟩
  · intro hne hmem
    rcases List.mem_map.mp hmem with ⟨⟨k', v⟩, hentry, hv⟩
    dsimp only at hv
    subst hv
    have hsrc : (k', (r1.environment, t1)) ∈ b.flatTests := by
      rcases mem_foldl_dictInsert _ _ _ (testsMap_eq_flat b ▸ hentry) with h | h
      · cases h
      · exact h
    rcases List.mem_flatMap.mp hsrc with ⟨r, _, hentry2⟩
    rcases List.mem_map.mp hentry2 with ⟨t, _, heq⟩
    have henv : r.environment = r1.environment := congrArg (·.2.1) heq
    have ht : t = t1 := congrArg (·.2.2) heq
    have hk' : k' = testKey r2 t2 := by
      have h1 : testKey r t = k' := congrArg (·.1) heq
      rw [← h1, ht, testKey, henv, ← hkey]
      rfl
    subst hk'
    have := dictLookup_of_mem_nodup _ _ _ hnd hentry
    rw [hlook] at this
    exact hne (Option.some.inj this).symm
  all_goals
    obtain ⟨i1, i2, i3, i4⟩ := foldl_classify_countP (b.testsMap.map (·.2)) emptySummary
    first
      | simpa [emptySummary] using i1
      | simpa [emptySummary] using i2
      | simpa [emptySummary] using i3
      | simpa [emptySummary] using i4

/-- C4 witness: `dupBuild` has a pass for key (env 1, suite 1, "t") in
run 1 and a fail for the same key in run 2 — the map holds the run-2
fail, the run-1 pass does not survive, and the fail counter counts the
surviving values. -/
theorem c4_dedup_higher_run_wins_witness :
    dictLookup (testKey dupRun2 dupTest2) dupBuild.testsMap =
      some (dupRun2.environment, dupTest2) ∧
    (dupRun1.environment, dupTest1) ∉ dupBuild.testsMap.map (·.2) ∧
    (TestSummary.ofBuildT dupBuild).counts.tests_fail =
      (dupBuild.testsMap.map (·.2)).countP (fun et => et.2.status == "fail") := by
  have h := c4_dedup_higher_run_wins dupBuild dupRun1 dupRun2 dupTest1 dupTest2
    (by decide) (by decide) (by decide) (by decide) (by decide) rfl (by decide)
  exact ⟨h.1, h.2.1 (by decide), h.2.2.2.2.1⟩

theorem mem_dedupAux [DecidableEq α] (seen : List α) (l : List α) (x : α) :
    x ∈ dedupAux seen l ↔ x ∈ l ∧ x ∉ seen := by
  induction l generalizing seen with
  | nil => simp [dedupAux]
  | cons y ys ih =>
    by_cases hy : y ∈ seen
    · rw [dedupAux, if_pos hy, ih]
      constructor
      · rintro ⟨h1, h2⟩
        exact ⟨List.mem_cons_of_mem y h1, h2⟩
      · rintro ⟨h1, h2⟩
        rcases List.mem_cons.mp h1 with h3 | h3
        · subst h3; exact absurd hy h2
        · exact ⟨h3, h2⟩
    · rw [dedupAux, if_neg hy]
      constructor
      · intro h
        rcases List.mem_cons.mp h with h1 | h1
        · subst h1; exact ⟨List.mem_cons_self x ys, hy⟩
        · obtain ⟨h2, h3⟩ := (ih _).mp h1
          exact ⟨List.mem_cons_of_mem y h2,
            fun hs => h3 (List.mem_append.mpr (Or.inl hs))⟩
      · rintro ⟨h1, h2⟩
        by_cases hx : x = y
        · subst hx; exact List.mem_cons_self x _
        · rcases List.mem_cons.mp h1 with h3 | h3
          · exact absurd h3 hx
          · refine List.mem_cons_of_mem y ((ih _).mpr ⟨h3, ?_⟩)
            intro hs
            rcases List.mem_append.mp hs with h4 | h4
            · exact h2 h4
            · exact hx (List.mem_singleton.mp h4)

theorem dedupAux_append_singleton [DecidableEq α] (seen l : List α) (x : α) :
    dedupAux seen (l ++ [x]) =
      dedupAux seen l ++ (if x ∈ seen ∨ x ∈ l then [] else [x]) := by
  induction l generalizing seen with
  | nil =>
    simp only [List.nil_append, dedupAux]
    split_ifs with h1 h2 h2 <;> simp_all [dedupAux]
  | cons y ys ih =>
    by_cases hy : y ∈ seen
    · rw [List.cons_append, dedupAux, if_pos hy, dedupAux, if_pos hy, ih]
      have hiff2 : (x ∈ seen ∨ x ∈ ys) ↔ (x ∈ seen ∨ x ∈ y :: ys) := by
        constructor
        · rintro (h | h)
          · exact Or.inl h
          · exact Or.inr (List.mem_cons_of_mem y h)
        · rintro (h | h)
          · exact Or.inl h
          · rcases List.mem_cons.mp h with h1 | h1
            · exact Or.inl (h1 ▸ hy)
            · exact Or.inr h1
      rw [if_congr hiff2 rfl rfl]
    · rw [List.cons_append, dedupAux, if_neg hy, dedupAux, if_neg hy, ih]
      have hiff : (x ∈ seen ++ [y] ∨ x ∈ ys) ↔ (x ∈ seen ∨ x ∈ y :: ys) := by
        constructor
        · rintro (h | h)
          · rcases List.mem_append.mp h with h1 | h1
            · exact Or.inl h1
            · exact Or.inr (List.mem_cons.mpr (Or.inl (List.mem_singleton.mp h1)))
          · exact Or.inr (List.mem_cons_of_mem y h)
        · rintro (h | h)
          · exact Or.inl (List.mem_append.mpr (Or.inl h))
          · rcases List.mem_cons.mp h with h1 | h1
            · exact Or.inl (List.mem_append.mpr (Or.inr (List.mem_singleton.mpr h1)))
            · exact Or.inr h1
      rw [if_congr hiff rfl rfl, List.cons_append]

theorem nodup_dedupAux [DecidableEq α] (seen l : List α) :
    (dedupAux seen l).Nodup := by
  induction l generalizing seen with
  | nil => simp [dedupAux]
  | cons y ys ih =>
    by_cases hy : y ∈ seen
    · rw [dedupAux, if_pos hy]; exact ih seen
    · rw [dedupAux, if_neg hy]
      refine List.nodup_cons.mpr ⟨?_, ih (seen ++ [y])⟩
      intro hc
      have := (mem_dedupAux _ _ _).mp hc
      exact this.2 (List.mem_append.mpr (Or.inr (by simp)))

theorem dedupAux_eq_self [DecidableEq α] (seen l : List α)
    (hd : l.Nodup) (hdisj : ∀ x ∈ l, x ∉ seen) :
    dedupAux seen l = l := by
  induction l generalizing seen with
  | nil => rfl
  | cons y ys ih =>
    rw [dedupAux, if_neg (hdisj y (List.mem_cons_self y ys))]
    congr 1
    refine ih (seen ++ [y]) (List.nodup_cons.mp hd).2 ?_
    intro x hx hc
    rcases List.mem_append.mp hc with h | h
    · exact hdisj x (List.mem_cons_of_mem y hx) h
    · exact (List.nodup_cons.mp hd).1 (List.mem_singleton.mp h ▸ hx)

theorem mem_dedupF [DecidableEq α] (l : List α) (x : α) :
    x ∈ dedupF l ↔ x ∈ l := by
  rw [dedupF, mem_dedupAux]
  simp

theorem dedupF_append_singleton [DecidableEq α] (l : List α) (x : α) :
    dedupF (l ++ [x]) = dedupF l ++ (if x ∈ l then [] else [x]) := by
  rw [dedupF, dedupAux_append_singleton]
  congr 1
  apply if_congr _ rfl rfl
  simp

theorem nodup_dedupF [DecidableEq α] (l : List α) : (dedupF l).Nodup :=
  nodup_dedupAux [] l

theorem dedupF_eq_self [DecidableEq α] (l : List α) (h : l.Nodup) :
    dedupF l = l :=
  dedupAux_eq_self [] l h (by simp)

theorem entryKeys_append (es : List (String × MetaValue)) (e : String × MetaValue) :
    entryKeys (es ++ [e]) = entryKeys es ++ [e.1] := by
  simp [entryKeys]

theorem valuesOf_append_singleton (es : List (String × MetaValue))
    (k v : _) (k' : String) :
    valuesOf (es ++ [(k, v)]) k' =
      valuesOf es k' ++ (if k = k' then [v] else []) := by
  rw [valuesOf, List.filter_append, List.map_append, valuesOf]
  congr 1
  by_cases h : k = k' <;> simp [List.filter_cons, h]

theorem valuesOf_eq_nil (es : List (String × MetaValue)) (k : String)
    (h : k ∉ entryKeys es) : valuesOf es k = [] := by
  induction es with
  | nil => rfl
  | cons e rest ih =>
    rw [valuesOf, List.filter_cons]
    have hne : ¬(e.1 = k) := by
      intro hc
      exact h (by simp [entryKeys, hc])
    rw [if_neg (by simp [hne])]
    exact ih (fun hc => h (List.mem_cons_of_mem _ hc))

theorem addValue_not_mem (L : List (String × List MetaValue)) (k : String)
    (v : MetaValue) (h : k ∉ L.map (·.1)) :
    addValue L (k, v) = L ++ [(k, [v])] := by
  induction L with
  | nil => rfl
  | cons e rest ih =>
    obtain ⟨k', vs⟩ := e
    have hne : ¬(k' = k) := by
      intro hc
      exact h (by simp [hc])
    have hrest : k ∉ rest.map (·.1) := by
      intro hc
      exact h (List.mem_cons_of_mem _ hc)
    rw [addValue, if_neg hne, List.cons_append, ih hrest]

theorem addValue_map_mem (kd : List String) (g : String → List MetaValue)
    (k : String) (v : MetaValue) (hk : k ∈ kd) (hnd : kd.Nodup) :
    addValue (kd.map (fun k' => (k', g k'))) (k, v) =
      kd.map (fun k' =>
        (k', if k' = k then (if v ∈ g k then g k else g k ++ [v]) else g k')) := by
  induction kd with
  | nil => cases hk
  | cons a rest ih =>
    obtain ⟨ha, hndr⟩ := List.nodup_cons.mp hnd
    by_cases hak : a = k
    · subst hak
      rw [List.map_cons, List.map_cons, addValue, if_pos rfl]
      congr 1
      · simp
      · apply (List.map_congr_left _).symm
        intro k' hk'
        have : ¬(k' = a) := fun hc => ha (hc ▸ hk')
        simp [this]
    · have hkr : k ∈ rest := by
        rcases List.mem_cons.mp hk with h | h
        · exact absurd h.symm hak
        · exact h
      rw [List.map_cons, List.map_cons, addValue, if_neg hak, ih hkr hndr]
      congr 1
      rw [if_neg hak]

theorem foldl_addValue_eq (es : List (String × MetaValue)) :
    es.foldl addValue [] = collectSpec es := by
  induction es using List.reverseRecOn with
  | nil => rfl
  | append_singleton es e ih =>
    obtain ⟨k, v⟩ := e
    rw [List.foldl_append, List.foldl_cons, List.foldl_nil, ih]
    by_cases hk : k ∈ entryKeys es
    · have hmm : k ∈ dedupF (entryKeys es) := (mem_dedupF _ _).mpr hk
      simp only [collectSpec, entryKeys_append]
      rw [dedupF_append_singleton, if_pos hk, List.append_nil,
        addValue_map_mem (dedupF (entryKeys es)) _ k v hmm (nodup_dedupF _)]
      apply List.map_congr_left
      intro k' hk'
      by_cases hkk : k' = k
      · subst hkk
        rw [if_pos rfl, valuesOf_append_singleton, if_pos rfl, dedupF_append_singleton]
        by_cases hv : v ∈ valuesOf es k'
        · rw [if_pos hv, List.append_nil, if_pos ((mem_dedupF _ _).mpr hv)]
        · rw [if_neg hv, if_neg (fun hc => hv ((mem_dedupF _ _).mp hc))]
      · rw [if_neg hkk, valuesOf_append_singleton,
          if_neg (fun hc => hkk hc.symm), List.append_nil]
    · simp only [collectSpec, entryKeys_append]
      have hknot : k ∉ (List.map (fun k' => (k', dedupF (valuesOf es k')))
          (dedupF (entryKeys es))).map (·.1) := by
        intro hc
        rcases List.mem_map.mp hc with ⟨p, hp, hpk⟩
        rcases List.mem_map.mp hp with ⟨a, ha, rfl⟩
        dsimp only at hpk
        subst hpk
        exact hk ((mem_dedupF _ _).mp ha)
      rw [addValue_not_mem _ _ _ hknot, dedupF_append_singleton, if_neg hk,
        List.map_append]
      congr 1
      · apply List.map_congr_left
        intro k' hk'
        have hne : ¬(k = k') := fun hc => hk (hc ▸ (mem_dedupF _ _).mp hk')
        rw [valuesOf_append_singleton, if_neg hne, List.append_nil]
      · rw [List.map_singleton, valuesOf_append_singleton, if_pos rfl,
          valuesOf_eq_nil es k hk, List.nil_append]
        rfl

theorem valuesOf_cons (e : String × MetaValue) (rest : List (String × MetaValue))
    (k : String) :
    valuesOf (e :: rest) k =
      (if e.1 = k then [e.2] else []) ++ valuesOf rest k := by
  rw [valuesOf, List.filter_cons]
  by_cases h : e.1 = k <;> simp [h, valuesOf]

theorem collectSpec_of_nodup (M : List (String × MetaValue))
    (h : (M.map (·.1)).Nodup) :
    collectSpec M = M.map (fun kv => (kv.1, [kv.2])) := by
  rw [collectSpec, dedupF_eq_self _ (by exact h)]
  induction M with
  | nil => rfl
  | cons e rest ih =>
    obtain ⟨k0, v0⟩ := e
    obtain ⟨h0, hrest⟩ := List.nodup_cons.mp h
    rw [entryKeys, List.map_cons, List.map_cons, List.map_cons]
    congr 1
    · rw [valuesOf_cons]
      dsimp only
      rw [if_pos rfl, valuesOf_eq_nil rest k0 (by exact h0), List.append_nil]
      rfl
    · rw [show (rest.map (·.1) : List String) = entryKeys rest from rfl] at hrest ⊢
      rw [← ih hrest]
      apply List.map_congr_left
      intro k' hk'
      rw [valuesOf_cons]
      dsimp only
      have hne : ¬(k0 = k') := by
        intro hc
        subst hc
        exact h0 hk'
      rw [if_neg hne, List.nil_append]

theorem mergeMetadata_single (M : List (String × MetaValue))
    (h : (M.map (·.1)).Nodup) :
    mergeMetadata [M] = M := by
  have hflat : ([M].flatMap id) = M := by simp
  rw [mergeMetadata, collectValues, hflat, foldl_addValue_eq, collectSpec_of_nodup M h,
    List.map_map]
  have : ((fun kv => (kv.1, finalizeValues kv.2)) ∘ fun kv : String × MetaValue =>
      (kv.1, [kv.2])) = id := by
    funext kv
    rfl
  rw [this, List.map_id]

theorem mergeMetadata_keys (ms : List (List (String × MetaValue))) :
    (mergeMetadata ms).map (·.1) = dedupF (entryKeys (ms.flatMap id)) := by
  rw [mergeMetadata, collectValues, foldl_addValue_eq, collectSpec, List.map_map,
    List.map_map]
  exact List.map_congr_left (fun a _ => rfl) |>.trans (List.map_id _)

/-- C5 (amended): `Build.metadata` merges the runs' metadata maps with
list-valued inputs treated as *atoms*: for each key (in first-occurrence
order) the distinct values are collected under whole-value equality, a key
with exactly one distinct value maps to that value itself (even when it is
a list), and a key with several distinct values maps to the list of all
distinct values sorted by their string representation. -/
theorem c5_metadata_merge (b : Build) :
    Build.metadata b = mergeMetadataSpec (b.test_runs.map (·.metadata)) := by
  rw [Build.metadata, mergeMetadata, collectValues, foldl_addValue_eq,
    mergeMetadataSpec, collectSpec, List.map_map]
  rfl

/-- C5 counterexample: a single run with metadata `{"k": ['a', 'a']}`.
The code keeps the list as one (deduplicated) value and returns it
unchanged — `{"k": ['a', 'a']}` — whereas the claim's
"already expanded, elements individually deduplicated" reading would
produce `{"k": 'a'}`. -/
theorem c5_metadata_merge_counterexample :
    Build.metadata listMetaBuild ≠
      mergeMetadataClaimed (listMetaBuild.test_runs.map (·.metadata)) := by
  decide

/-- C6: the metadata merge is idempotent — merging the single map that is
a build's merged metadata yields that map again. -/
theorem c6_metadata_merge_idempotent (b : Build) :
    mergeMetadata [Build.metadata b] = Build.metadata b := by
  apply mergeMetadata_single
  rw [Build.metadata, mergeMetadata_keys]
  exact nodup_dedupF _
